import Mathlib

/-!
Verification of the dupl clone-detection driver (src/main.go).

The definitions below are a shallow embedding of the Go code in
src/main.go.  External collaborators that are not part of this
repository (the Go standard library, and the parsing / suffix-tree
packages the driver imports) are modelled either as oracle parameters
or, where the specification describes them, as definitions documented
as modelled from the spec.
-/

namespace Dupl

/-- Modelled from the spec: the Node record of the token stream
(package `syntax`, not under src/).  §3 of the spec: `kind` (here
`type`, as the Go field is `Type`), `filename`, `pos`, `end`, `owns`.
The driver in src/main.go reads `Type`, `Filename` and `Pos`. -/
structure Node where
  type : Int
  Filename : String
  Pos : Int
  End : Int
  Owns : Int
deriving DecidableEq, Repr

/-- Go `strings.HasPrefix(s, pre)`: embedded as character-list
prefixhood of the two strings. -/
def hasPrefixS (s pre : String) : Bool :=
  pre.data.isPrefixOf s.data

/-- One probe of the inner loop of `matchesFiles` (src/main.go lines
104-109): scan the path set and delete the first root path that is a
string prefix of `filename`; at most one path is removed (the Go loop
does `delete` then `break`).  The Go `pathMap` is a map with arbitrary
iteration order; we fix list order, which is one admissible order. -/
def removePathFor (filename : String) : List String → List String
  | [] => []
  | p :: rest =>
    if hasPrefixS filename p then rest
    else p :: removePathFor filename rest

/-- The node loop of `matchesFiles` (src/main.go line 103): each node
of the fragment gets one probe at the remaining path set. -/
def fragStep : List String → List Node → List String
  | pm, [] => pm
  | pm, n :: ns => fragStep (removePathFor n.Filename pm) ns

/-- The fragment loop of `matchesFiles` (src/main.go line 102),
including the early exit once the path set is empty. -/
def fragsLoop : List (List Node) → List String → List String
  | [], pm => pm
  | frag :: rest, pm =>
    if pm.isEmpty then pm else fragsLoop rest (fragStep pm frag)

/-- `matchesFiles` of `findDuplicates` (src/main.go lines 95-114):
build the path set (a Go map collapses duplicate paths, hence
`dedup`), run the loops, and answer whether the set was emptied. -/
def matchesFiles (paths : List String) (frags : List (List Node)) : Bool :=
  (fragsLoop frags paths.dedup).isEmpty

/-- The emission condition of `findDuplicates` (src/main.go lines
92-118): a match reaches the output channel iff it has at least one
fragment and `matchesFiles` holds. -/
def emitMatch (paths : List String) (frags : List (List Node)) : Bool :=
  !frags.isEmpty && matchesFiles paths frags

/-- The `paths` variable of src/main.go (lines 22-23 and 50-52): it
defaults to `["."]` and is replaced by the positional arguments when
there are any. -/
def effectivePaths (args : List String) : List String :=
  if args.length > 0 then args else ["."]

/-- Whether some node of the fragment has `p` as a filename prefix. -/
def coversB (p : String) (frag : List Node) : Bool :=
  frag.any (fun n => hasPrefixS n.Filename p)

/-- The `(filename, starting position)` key of a fragment, read from its
first node; `none` when the fragment is empty (in Go, `seq[0]` on an
empty slice is an out-of-bounds panic). -/
def headKey : List Node → Option (String × Int)
  | [] => none
  | n :: _ => some (n.Filename, n.Pos)

/-- The loop of `unique` (src/main.go lines 198-215), with the Go map
`fileMap` (a map from filename to a set of positions) embedded as the
set of `(filename, pos)` pairs already seen.  The Go code reads
`seq[0]` unconditionally; an empty fragment is the out-of-bounds
panic, embedded as `none`. -/
def uniqueAux : List (List Node) → List (String × Int) → Option (List (List Node))
  | [], _ => some []
  | seq :: rest, seen =>
    match seq with
    | [] => none
    | n :: _ =>
      if (n.Filename, n.Pos) ∈ seen then uniqueAux rest seen
      else Option.map (fun ng => seq :: ng) (uniqueAux rest ((n.Filename, n.Pos) :: seen))

/-- `unique` of src/main.go: deduplicate a group by the
`(filename, pos)` key of each fragment's first node. -/
def uniqueGo (group : List (List Node)) : Option (List (List Node)) :=
  uniqueAux group []

/-- The key loop of `printDupls` (src/main.go lines 187-194): for each
key in order, take the accumulated group, run `unique`, and print it
only when more than one fragment is left.  The result is the list of
printed groups; `none` is the out-of-bounds panic propagated from
`unique`. -/
def processKeys (groups : List (String × List (List Node))) :
    List String → Option (List (List (List Node)))
  | [] => some []
  | k :: rest =>
    match groups.lookup k with
    | none => none
    | some g =>
      match uniqueGo g with
      | none => none
      | some u =>
        if u.length > 1 then Option.map (fun out => u :: out) (processKeys groups rest)
        else processKeys groups rest

/-- The key collection and `sort.Strings` of `printDupls`
(src/main.go lines 178-182): the group map's keys in ascending
lexicographic order. -/
def sortedKeys (groups : List (String × List (List Node))) : List String :=
  List.insertionSort (fun a b => a ≤ b) (groups.map Prod.fst)

/-- `printDupls` (src/main.go lines 171-196), with the accumulation
phase already done: the group map is an association list keyed by
canonical hash, and the printed groups follow the sorted key order. -/
def printedGroups (groups : List (String × List (List Node))) :
    Option (List (List (List Node))) :=
  processKeys groups (sortedKeys groups)

/-- The threshold loop of `main` (src/main.go lines 76-82):
`for i := *fromThreshold; i >= *toThreshold; i -= 1`, collecting the
thresholds in launch order; each element stands for one
`t.FindDuplOver(i)` query and one `findDuplicates` extractor. -/
def thresholdList (f t : Int) : List Int :=
  if h : t ≤ f then f :: thresholdList (f - 1) t else []
termination_by (f - t + 1).toNat
decreasing_by simp_wf; omega

/-- The configuration read from the flags of src/main.go that the
driver's control flow inspects. -/
structure Config where
  html : Bool
  plumbing : Bool
  fromThreshold : Int
  toThreshold : Int
deriving DecidableEq, Repr

/-- Outcome of the pre-pipeline part of `main`:
`fatalOutputConflict` is the `log.Fatal` at src/main.go line 48;
`ran qs` means the pipeline (job.Parse, job.BuildTree, the sentinel
update, lines 57-62) executed and the thresholds `qs` were queried. -/
inductive MainOutcome where
  | fatalOutputConflict : MainOutcome
  | ran : List Int → MainOutcome
deriving DecidableEq, Repr

/-- The control flow of `main` (src/main.go lines 44-87): the only
configuration check before the pipeline is `*html && *plumbing`; in
every other case the pipeline runs and the threshold loop launches
`thresholdList` queries. -/
def mainControl (c : Config) : MainOutcome :=
  if c.html && c.plumbing then MainOutcome.fatalOutputConflict
  else MainOutcome.ran (thresholdList c.fromThreshold c.toThreshold)

/-- Result of `crawlPaths`: `fatal` is `log.Fatal` (the whole run
aborts), `ok fs` is the list of filenames sent on the channel. -/
inductive CrawlResult where
  | fatal : CrawlResult
  | ok : List String → CrawlResult
deriving DecidableEq, Repr

/-- `crawlPaths` (src/main.go lines 140-169).  `lstat` is the
`os.Lstat` oracle, returning the IsDir bit or an error; `walk` is the
`filepath.Walk` oracle with the callback of lines 152-161 folded in
(it returns the emitted `.go` files after vendor filtering, or an
error).  Both error branches are `log.Fatal` in the Go code. -/
def crawlPaths (lstat : String → Except String Bool)
    (walk : String → Except String (List String)) : List String → CrawlResult
  | [] => CrawlResult.ok []
  | p :: rest =>
    match lstat p with
    | Except.error _ => CrawlResult.fatal
    | Except.ok isDir =>
      if isDir = false then
        match crawlPaths lstat walk rest with
        | CrawlResult.fatal => CrawlResult.fatal
        | CrawlResult.ok fs => CrawlResult.ok (p :: fs)
      else
        match walk p with
        | Except.error _ => CrawlResult.fatal
        | Except.ok gofiles =>
          match crawlPaths lstat walk rest with
          | CrawlResult.fatal => CrawlResult.fatal
          | CrawlResult.ok fs => CrawlResult.ok (gofiles ++ fs)

/-- Modelled from the spec: the builder (`job.BuildTree`, not under
src/) feeds each file's tokens into the tree in arrival order with no
separator between files (spec §9: the source inserts a single sentinel
after all files rather than one per file), and `main` then appends the
one sentinel node of kind `-1` (src/main.go line 62).  The stream is
taken over token kinds. -/
def buildStream (files : List (List Int)) : List Int :=
  files.flatten ++ [-1]

/-- Whether the kind pattern `pat` occurs in the stream `s` starting at
global position `p`. -/
def occursAt (s : List Int) (p : Nat) (pat : List Int) : Bool :=
  pat.isPrefixOf (s.drop p)

/-- Lstat oracle with one failing path, for concrete runs. -/
def lstatBad : String → Except String Bool :=
  fun p => if p = "bad" then Except.error "stat error" else Except.ok false

/-- Walk oracle that finds no files, for concrete runs. -/
def walkNone : String → Except String (List String) :=
  fun _ => Except.ok []

/-- A concrete node with filename "abc". -/
def cNodeAbc : Node := { type := 0, Filename := "abc", Pos := 0, End := 3, Owns := 1 }

/-- A concrete node with filename "ab". -/
def cNodeAb : Node := { type := 0, Filename := "ab", Pos := 0, End := 2, Owns := 1 }

/-- A concrete node with filename "./x.go". -/
def cNodeDot : Node := { type := 0, Filename := "./x.go", Pos := 0, End := 4, Owns := 1 }

/-- Concrete fragment nodes sharing filename and position. -/
def nA : Node := { type := 1, Filename := "f.go", Pos := 10, End := 20, Owns := 1 }

/-- Same `(filename, pos)` as `nA`, different end. -/
def nA2 : Node := { type := 2, Filename := "f.go", Pos := 10, End := 25, Owns := 1 }

/-- A node in a different file. -/
def nB : Node := { type := 1, Filename := "g.go", Pos := 10, End := 20, Owns := 1 }

end Dupl

namespace Dupl

theorem removePathFor_nil (f : String) : removePathFor f [] = [] := rfl

theorem fragStep_nil_pm (frag : List Node) : fragStep [] frag = [] := by
  induction frag with
  | nil => rfl
  | cons n ns ih => simpa [fragStep, removePathFor] using ih

theorem fragStep_singleton (p : String) (frag : List Node) :
    fragStep [p] frag = if coversB p frag then [] else [p] := by
  induction frag with
  | nil => simp [fragStep, coversB]
  | cons n ns ih =>
    by_cases h : hasPrefixS n.Filename p
    · simp [fragStep, removePathFor, h, coversB, fragStep_nil_pm]
    · simpa [fragStep, removePathFor, h, coversB] using ih

theorem fragsLoop_nil_pm (frags : List (List Node)) : fragsLoop frags [] = [] := by
  cases frags <;> simp [fragsLoop]

theorem fragsLoop_singleton (p : String) (frags : List (List Node)) :
    fragsLoop frags [p] = if frags.any (fun frag => coversB p frag) then [] else [p] := by
  induction frags with
  | nil => simp [fragsLoop]
  | cons frag rest ih =>
    by_cases h : coversB p frag
    · simp [fragsLoop, fragStep_singleton, h, fragsLoop_nil_pm]
    · simpa [fragsLoop, fragStep_singleton, h] using ih

theorem matchesFiles_singleton (p : String) (frags : List (List Node)) :
    matchesFiles [p] frags = frags.any (fun frag => coversB p frag) := by
  unfold matchesFiles
  rw [show ([p] : List String).dedup = [p] by
       rw [List.dedup_cons_of_not_mem (List.not_mem_nil p), List.dedup_nil]]
  rw [fragsLoop_singleton]
  cases h : frags.any (fun frag => coversB p frag) <;> simp

theorem mem_removePathFor {p f : String} {pm : List String}
    (hp : p ∈ pm) (hnp : hasPrefixS f p = false) : p ∈ removePathFor f pm := by
  induction pm with
  | nil => cases hp
  | cons q rest ih =>
    by_cases hq : hasPrefixS f q
    · rcases List.mem_cons.mp hp with h | h
      · subst h; rw [hq] at hnp; cases hnp
      · simpa [removePathFor, hq] using h
    · rcases List.mem_cons.mp hp with h | h
      · simp [removePathFor, hq, h]
      · simp [removePathFor, hq, ih h]

theorem mem_fragStep {p : String} :
    ∀ (frag : List Node) (pm : List String), p ∈ pm →
      (∀ n ∈ frag, hasPrefixS n.Filename p = false) → p ∈ fragStep pm frag := by
  intro frag
  induction frag with
  | nil => intro pm hp _; simpa [fragStep] using hp
  | cons n ns ih =>
    intro pm hp hall
    have hn : hasPrefixS n.Filename p = false := hall n (List.mem_cons_self n ns)
    have hrest : ∀ m ∈ ns, hasPrefixS m.Filename p = false :=
      fun m hm => hall m (List.mem_cons_of_mem n hm)
    simpa [fragStep] using ih (removePathFor n.Filename pm) (mem_removePathFor hp hn) hrest

theorem mem_fragsLoop {p : String} :
    ∀ (frags : List (List Node)) (pm : List String), p ∈ pm →
      (∀ frag ∈ frags, ∀ n ∈ frag, hasPrefixS n.Filename p = false) →
      p ∈ fragsLoop frags pm := by
  intro frags
  induction frags with
  | nil => intro pm hp _; simpa [fragsLoop] using hp
  | cons frag rest ih =>
    intro pm hp hall
    by_cases he : pm.isEmpty
    · simpa [fragsLoop, he] using hp
    · have h1 : ∀ n ∈ frag, hasPrefixS n.Filename p = false :=
        hall frag (List.mem_cons_self frag rest)
      have h2 : ∀ fr ∈ rest, ∀ n ∈ fr, hasPrefixS n.Filename p = false :=
        fun fr hfr => hall fr (List.mem_cons_of_mem frag hfr)
      simpa [fragsLoop, he] using ih (fragStep pm frag) (mem_fragStep frag pm hp h1) h2

theorem thresholdList_eq (f t : Int) :
    thresholdList f t = if t ≤ f then f :: thresholdList (f - 1) t else [] := by
  rw [thresholdList]
  by_cases h : t ≤ f <;> simp [h]

theorem thresholdList_of_le {f t : Int} (h : t ≤ f) :
    thresholdList f t = f :: thresholdList (f - 1) t := by
  rw [thresholdList_eq, if_pos h]

theorem thresholdList_of_lt {f t : Int} (h : f < t) : thresholdList f t = [] := by
  rw [thresholdList_eq, if_neg (by omega : ¬ t ≤ f)]

theorem thresholdList_spec :
    ∀ (n : Nat) (f t : Int), (f - t + 1).toNat = n →
      (∀ i : Int, i ∈ thresholdList f t ↔ t ≤ i ∧ i ≤ f) ∧
      List.Sorted (fun a b => b < a) (thresholdList f t) ∧
      (thresholdList f t).length = (f - t + 1).toNat := by
  intro n
  induction n with
  | zero =>
    intro f t hn
    have hlt : f < t := by omega
    rw [thresholdList_of_lt hlt]
    refine ⟨?_, List.sorted_nil, ?_⟩
    · intro i
      simp only [List.not_mem_nil, false_iff]
      omega
    · simp only [List.length_nil]
      omega
  | succ m ih =>
    intro f t hn
    have hle : t ≤ f := by omega
    have hm : ((f - 1) - t + 1).toNat = m := by omega
    obtain ⟨ihA, ihB, ihC⟩ := ih (f - 1) t hm
    rw [thresholdList_of_le hle]
    refine ⟨?_, ?_, ?_⟩
    · intro i
      rw [List.mem_cons, ihA i]
      omega
    · rw [List.sorted_cons]
      refine ⟨?_, ihB⟩
      intro b hb
      have := (ihA b).mp hb
      omega
    · rw [List.length_cons, ihC]
      omega

theorem uniqueAux_spec :
    ∀ (group : List (List Node)) (seen : List (String × Int)) (ng : List (List Node)),
      uniqueAux group seen = some ng →
      (∀ x ∈ ng, ∃ k, headKey x = some k ∧ k ∉ seen) ∧
      List.Pairwise (fun s x => headKey s ≠ headKey x) ng ∧
      (∀ x ∈ ng, List.find? (fun s => decide (headKey s = headKey x)) group = some x) := by
  intro group
  induction group with
  | nil =>
    intro seen ng h
    simp only [uniqueAux, Option.some.injEq] at h
    subst h
    simp
  | cons seq rest ih =>
    intro seen ng h
    cases seq with
    | nil => simp [uniqueAux] at h
    | cons n tl =>
      by_cases hk : (n.Filename, n.Pos) ∈ seen
      · rw [show uniqueAux ((n :: tl) :: rest) seen = uniqueAux rest seen by
             simp [uniqueAux, hk]] at h
        obtain ⟨h1, h2, h3⟩ := ih seen ng h
        refine ⟨h1, h2, ?_⟩
        intro x hx
        obtain ⟨k, hkx, hks⟩ := h1 x hx
        have hne : decide (headKey (n :: tl) = headKey x) = false := by
          rw [decide_eq_false_iff_not, hkx,
            show headKey (n :: tl) = some (n.Filename, n.Pos) from rfl]
          intro hEq
          obtain rfl := Option.some.inj hEq
          exact hks hk
        rw [List.find?_cons_of_neg _ (by simp [hne])]
        exact h3 x hx
      · rw [show uniqueAux ((n :: tl) :: rest) seen =
              Option.map (fun ng => (n :: tl) :: ng)
                (uniqueAux rest ((n.Filename, n.Pos) :: seen)) by
             simp [uniqueAux, hk]] at h
        obtain ⟨ng1, hrec, hng⟩ := Option.map_eq_some'.mp h
        subst hng
        obtain ⟨h1, h2, h3⟩ := ih ((n.Filename, n.Pos) :: seen) ng1 hrec
        refine ⟨?_, ?_, ?_⟩
        · intro x hx
          rcases List.mem_cons.mp hx with rfl | hx1
          · exact ⟨(n.Filename, n.Pos), rfl, hk⟩
          · obtain ⟨k, hkx, hks⟩ := h1 x hx1
            exact ⟨k, hkx, fun hs => hks (List.mem_cons_of_mem _ hs)⟩
        · rw [List.pairwise_cons]
          refine ⟨?_, h2⟩
          intro x hx
          obtain ⟨k, hkx, hks⟩ := h1 x hx
          rw [hkx, show headKey (n :: tl) = some (n.Filename, n.Pos) from rfl]
          intro hEq
          obtain rfl := Option.some.inj hEq
          exact hks (List.mem_cons_self _ _)
        · intro x hx
          rcases List.mem_cons.mp hx with rfl | hx1
          · rw [List.find?_cons_of_pos _ (by simp)]
          · obtain ⟨k, hkx, hks⟩ := h1 x hx1
            have hne : decide (headKey (n :: tl) = headKey x) = false := by
              rw [decide_eq_false_iff_not, hkx,
                show headKey (n :: tl) = some (n.Filename, n.Pos) from rfl]
              intro hEq
              obtain rfl := Option.some.inj hEq
              exact hks (List.mem_cons_self _ _)
            rw [List.find?_cons_of_neg _ (by simp [hne])]
            exact h3 x hx1

theorem uniqueAux_isSome :
    ∀ (group : List (List Node)) (seen : List (String × Int)),
      (∀ seq ∈ group, seq ≠ []) → (uniqueAux group seen).isSome := by
  intro group
  induction group with
  | nil => intro seen _; simp [uniqueAux]
  | cons seq rest ih =>
    intro seen hne
    cases seq with
    | nil => exact absurd rfl (hne [] (List.mem_cons_self _ _))
    | cons n tl =>
      have hrest : ∀ s ∈ rest, s ≠ [] := fun s hs => hne s (List.mem_cons_of_mem _ hs)
      by_cases hk : (n.Filename, n.Pos) ∈ seen
      · simpa [uniqueAux, hk] using ih seen hrest
      · simpa [uniqueAux, hk, Option.isSome_map] using
          ih ((n.Filename, n.Pos) :: seen) hrest

theorem processKeys_min_card :
    ∀ (ks : List String) (groups : List (String × List (List Node)))
      (out : List (List (List Node))),
      processKeys groups ks = some out → ∀ g ∈ out, 2 ≤ g.length := by
  intro ks
  induction ks with
  | nil =>
    intro groups out h g hg
    simp only [processKeys, Option.some.injEq] at h
    subst h
    simp at hg
  | cons k rest ih =>
    intro groups out h g hg
    simp only [processKeys] at h
    split at h
    · exact absurd h (by simp)
    · split at h
      · exact absurd h (by simp)
      · rename_i grp hgrp u hu
        split at h
        · rename_i hlen
          obtain ⟨out1, hout1, hout⟩ := Option.map_eq_some'.mp h
          subst hout
          rcases List.mem_cons.mp hg with rfl | hg1
          · omega
          · exact ih groups out1 hout1 g hg1
        · exact ih groups out h g hg

/-- C1 (code_bug evaluation): the driver appends a single sentinel of
kind `-1` once after all files (src/main.go line 62), not one
terminator per file.  At the concrete corpus with kind streams
`[2,3]`, `[1,2]`, `[3,1]`: the built stream is the plain concatenation
followed by one sentinel; the sentinel occurs exactly once; the token
at position 2 (the boundary right after the first file) is not a
terminator; and the kind pattern `[3,1]` is a repeated substring with
one occurrence starting at position 1, which straddles the boundary
between the first and second file, so a repeated suffix is extended
past a file boundary, contrary to the claim. -/
theorem single_sentinel_not_per_file :
    buildStream [[2, 3], [1, 2], [3, 1]] = [2, 3, 1, 2, 3, 1, -1] ∧
    (buildStream [[2, 3], [1, 2], [3, 1]]).count (-1) = 1 ∧
    (buildStream [[2, 3], [1, 2], [3, 1]]).get? 2 ≠ some (-1) ∧
    occursAt (buildStream [[2, 3], [1, 2], [3, 1]]) 1 [3, 1] = true ∧
    occursAt (buildStream [[2, 3], [1, 2], [3, 1]]) 4 [3, 1] = true := by
  decide

/-- C2 (counterexample): with `to_threshold = 10 > from_threshold = 5`
(and neither HTML nor plumbing output selected) the program does not
fail fatally: `mainControl` reaches the pipeline (`MainOutcome.ran`
means job.Parse, job.BuildTree and the sentinel update of src/main.go
lines 57-62 all execute) and merely launches zero threshold queries. -/
theorem invalid_thresholds_fatal_cex :
    mainControl { html := false, plumbing := false, fromThreshold := 5, toThreshold := 10 } =
      MainOutcome.ran [] ∧
    MainOutcome.ran ([] : List Int) ≠ MainOutcome.fatalOutputConflict := by
  constructor
  · simp [mainControl, thresholdList_of_lt (show (5 : Int) < 10 by norm_num)]
  · simp

/-- C2 (amended): `main` performs no threshold validation.  The only
fatal pre-pipeline configuration check is requesting both HTML and
plumbing output (src/main.go line 47); with
`to_threshold > from_threshold` the pipeline still runs and the
threshold loop launches zero queries. -/
theorem invalid_thresholds_run_empty (c : Config)
    (h1 : (c.html && c.plumbing) = false) (h2 : c.fromThreshold < c.toThreshold) :
    mainControl c = MainOutcome.ran [] := by
  simp [mainControl, h1, thresholdList_of_lt h2]

/-- C2 witness: the amended theorem applied at a concrete invalid
configuration. -/
theorem invalid_thresholds_run_empty_witness :
    ((false && false) = false ∧ (3 : Int) < 7) ∧
    mainControl { html := false, plumbing := false, fromThreshold := 3, toThreshold := 7 } =
      MainOutcome.ran [] :=
  ⟨⟨by decide, by decide⟩,
    invalid_thresholds_run_empty
      { html := false, plumbing := false, fromThreshold := 3, toThreshold := 7 }
      (by decide) (by decide)⟩

/-- C3 (counterexample): the claimed "if" direction fails.  With root
paths `["a", "ab"]` and a match consisting of one fragment with the
single node of filename "abc", every root path is a prefix of some
fragment filename, yet the match is not emitted: each node visit of
`matchesFiles` deletes at most one root path (delete-then-break), and
here there is only one node for two covered roots. -/
theorem path_filter_incomplete_cex :
    hasPrefixS cNodeAbc.Filename "a" = true ∧
    hasPrefixS cNodeAbc.Filename "ab" = true ∧
    emitMatch ["a", "ab"] [[cNodeAbc]] = false := by
  decide

/-- C3 (amended): the "only if" direction of the claim holds: whenever
`matchesFiles` accepts a match, every supplied root path is a string
prefix of the filename of some node of some fragment.  (The converse
can fail when a single node would have to cover several roots.) -/
theorem path_filter_sound (paths : List String) (frags : List (List Node))
    (h : matchesFiles paths frags = true) :
    ∀ p ∈ paths, ∃ frag ∈ frags, ∃ n ∈ frag, hasPrefixS n.Filename p = true := by
  intro p hp
  by_contra hc
  push_neg at hc
  have hall : ∀ frag ∈ frags, ∀ n ∈ frag, hasPrefixS n.Filename p = false := by
    intro frag hf n hn
    simpa using hc frag hf n hn
  have hmem : p ∈ fragsLoop frags paths.dedup :=
    mem_fragsLoop frags paths.dedup (List.mem_dedup.mpr hp) hall
  rw [matchesFiles, List.isEmpty_iff] at h
  rw [h] at hmem
  cases hmem

/-- C3 witness: the amended theorem applied at a concrete accepted
match. -/
theorem path_filter_sound_witness :
    matchesFiles ["a"] [[cNodeAb]] = true ∧
    ∀ p ∈ ["a"], ∃ frag ∈ [[cNodeAb]], ∃ n ∈ frag, hasPrefixS n.Filename p = true :=
  ⟨by decide, path_filter_sound ["a"] [[cNodeAb]] (by decide)⟩

/-- C4: whenever `unique` returns (no out-of-bounds panic), the
resulting group has no two fragments with the same
`(filename, starting position)` key, and each kept fragment is the
first fragment of the input group bearing its key (so later duplicates
were the ones discarded). -/
theorem unique_dedups_by_filename_pos (group ng : List (List Node))
    (h : uniqueGo group = some ng) :
    List.Pairwise (fun s x => headKey s ≠ headKey x) ng ∧
    ∀ x ∈ ng, List.find? (fun s => decide (headKey s = headKey x)) group = some x := by
  obtain ⟨-, h2, h3⟩ := uniqueAux_spec group [] ng h
  exact ⟨h2, h3⟩

/-- C4 witness: the theorem applied to a concrete group in which the
second fragment repeats the first fragment's `(filename, pos)` key. -/
theorem unique_dedups_by_filename_pos_witness :
    uniqueGo [[nA], [nA2], [nB]] = some [[nA], [nB]] ∧
    (List.Pairwise (fun s x => headKey s ≠ headKey x) [[nA], [nB]] ∧
      ∀ x ∈ [[nA], [nB]],
        List.find? (fun s => decide (headKey s = headKey x)) [[nA], [nA2], [nB]] = some x) :=
  ⟨by decide, unique_dedups_by_filename_pos [[nA], [nA2], [nB]] [[nA], [nB]] (by decide)⟩

/-- C5: every group that `printDupls` passes to the printer has at
least 2 fragments: after per-key deduplication the `len(uniq) > 1`
guard (src/main.go line 189) drops smaller groups. -/
theorem printed_groups_min_card (groups : List (String × List (List Node)))
    (out : List (List (List Node))) (h : printedGroups groups = some out) :
    ∀ g ∈ out, 2 ≤ g.length :=
  processKeys_min_card (sortedKeys groups) groups out h

/-- C5 witness: the theorem applied to a concrete group map with one
two-fragment group. -/
theorem printed_groups_min_card_witness :
    printedGroups [("h", [[nA], [nB]])] = some [[[nA], [nB]]] ∧
    ∀ g ∈ [[[nA], [nB]]], 2 ≤ g.length :=
  ⟨by decide, printed_groups_min_card [("h", [[nA], [nB]])] [[[nA], [nB]]] (by decide)⟩

/-- C6: for `from_threshold ≥ to_threshold`, the threshold loop of
`main` queries exactly the integers of the interval `[to, from]`, in
strictly descending order, with one loop iteration (one
`FindDuplOver` query and one `findDuplicates` extractor) per
threshold, i.e. `from - to + 1` launches in total. -/
theorem threshold_sweep_descending (f t : Int) (_h : t ≤ f) :
    (∀ i : Int, i ∈ thresholdList f t ↔ t ≤ i ∧ i ≤ f) ∧
    List.Sorted (fun a b => b < a) (thresholdList f t) ∧
    (thresholdList f t).length = (f - t + 1).toNat :=
  thresholdList_spec ((f - t + 1).toNat) f t rfl

/-- C6 witness: the theorem applied at `from = 5`, `to = 3`. -/
theorem threshold_sweep_descending_witness :
    (3 : Int) ≤ 5 ∧
    ((∀ i : Int, i ∈ thresholdList 5 3 ↔ 3 ≤ i ∧ i ≤ 5) ∧
      List.Sorted (fun a b : Int => b < a) (thresholdList 5 3) ∧
      (thresholdList 5 3).length = ((5 : Int) - 3 + 1).toNat) :=
  ⟨by norm_num, threshold_sweep_descending 5 3 (by norm_num)⟩

/-- C7: `printDupls` iterates the group keys in ascending
lexicographic order: the iteration order is sorted, it is a
permutation of the group map's keys, and the printed output follows
exactly that order; since the order is a function of the group map
alone, two runs producing the same map print the groups in the same
order. -/
theorem group_order_deterministic (groups : List (String × List (List Node))) :
    List.Sorted (fun a b : String => a ≤ b) (sortedKeys groups) ∧
    List.Perm (sortedKeys groups) (groups.map Prod.fst) ∧
    printedGroups groups = processKeys groups (sortedKeys groups) :=
  ⟨List.sorted_insertionSort _ _, List.perm_insertionSort _ _, rfl⟩

/-- C8 (counterexample): a per-file IOError in `crawlPaths` is fatal,
not skipped: when `os.Lstat` fails on the first supplied path, the
whole run aborts (src/main.go line 146) and the remaining file
"good.go" is never emitted. -/
theorem crawl_error_fatal_cex :
    crawlPaths lstatBad walkNone ["bad", "good.go"] = CrawlResult.fatal ∧
    CrawlResult.fatal ≠ CrawlResult.ok ["good.go"] := by
  decide

/-- C8 (amended): an IOError while crawling a supplied path is fatal:
if `os.Lstat` fails on a path, `crawlPaths` aborts the run via
`log.Fatal` and the remaining paths are not processed. -/
theorem crawl_lstat_error_fatal (lstat : String → Except String Bool)
    (walk : String → Except String (List String)) (p : String) (rest : List String)
    (e : String) (h : lstat p = Except.error e) :
    crawlPaths lstat walk (p :: rest) = CrawlResult.fatal := by
  simp [crawlPaths, h]

/-- C8 witness: the amended theorem applied at a concrete failing
Lstat oracle. -/
theorem crawl_lstat_error_fatal_witness :
    lstatBad "bad" = Except.error "stat error" ∧
    crawlPaths lstatBad walkNone ["bad"] = CrawlResult.fatal :=
  ⟨rfl, crawl_lstat_error_fatal lstatBad walkNone "bad" [] "stat error" rfl⟩

/-- C9: the path filter runs unconditionally.  With no positional
arguments `paths` stays at its default `["."]`, and then
`findDuplicates` emits a match exactly when it is non-empty and some
node of some fragment has a filename with the literal string prefix
"."; in particular a match none of whose fragment filenames starts
with "." is suppressed in a default invocation. -/
theorem default_path_filter_dot (frags : List (List Node)) :
    effectivePaths [] = ["."] ∧
    (emitMatch (effectivePaths []) frags = true ↔
      frags ≠ [] ∧ ∃ frag ∈ frags, ∃ n ∈ frag, hasPrefixS n.Filename "." = true) := by
  refine ⟨rfl, ?_⟩
  rw [show effectivePaths [] = ["."] from rfl, emitMatch, matchesFiles_singleton]
  simp [Bool.and_eq_true, List.any_eq_true, coversB, List.isEmpty_iff]

/-- C10: `unique` reads `seq[0]` of every fragment, and this is safe
exactly under the precondition that every fragment of the group is
non-empty: for every such group `unique` returns a result (the
out-of-bounds branch, embedded as `none`, is not reached). -/
theorem unique_total_on_nonempty (group : List (List Node))
    (h : ∀ seq ∈ group, seq ≠ []) : (uniqueGo group).isSome :=
  uniqueAux_isSome group [] h

/-- C10 witness: the theorem applied to a concrete group of non-empty
fragments. -/
theorem unique_total_on_nonempty_witness :
    (∀ seq ∈ [[nB]], seq ≠ ([] : List Node)) ∧ (uniqueGo [[nB]]).isSome :=
  ⟨by decide, unique_total_on_nonempty [[nB]] (by decide)⟩

end Dupl
